import Mathlib

set_option maxRecDepth 8000

/-!
Shallow embedding of the Minesweeper AI (`src/minesweeper.py`): the `Sentence`
class and the `MinesweeperAI` agent (its mark operations, `add_knowledge`,
the `update_knowledge` fixed-point loop and the move-selection functions),
together with theorems settling the specification claims about them.

Modelling conventions: Python ints are `ℤ`, Python sets are `Finset`, the
`knowledge` list is a `List`.  Loops over Python sets (whose iteration order
is unspecified) are modelled by their order-independent net effect on the
state; loops over lists are modelled by folds in list order.  The
`while updated` loop of `update_knowledge` is modelled with explicit fuel
returning `Option`, since (as proved below) the loop does not terminate from
every state.
-/

/-- Board cell: a pair of integers (row, column), as in the source. -/
abbrev Cell : Type := ℤ × ℤ

/-- The `Sentence` class: a set of undetermined cells and a count of the number
of those cells which are mines.  `mine_cell` and `safe_cell` are the two
bookkeeping sets initialised in the constructor and written by `mark_mine`
and `mark_safe`; they are never read. -/
structure Sentence where
  cells : Finset Cell
  count : ℤ
  mine_cell : Finset Cell
  safe_cell : Finset Cell
deriving DecidableEq

/-- The constructor `Sentence(cells, count)`: the bookkeeping sets start empty. -/
def Sentence.init (cells : Finset Cell) (count : ℤ) : Sentence :=
  ⟨cells, count, ∅, ∅⟩

/-- Sentence equality of the source (`__eq__`): equality of `cells` and `count`. -/
def Sentence.eqv (s t : Sentence) : Bool :=
  decide (s.cells = t.cells) && decide (s.count = t.count)

/-- Membership of a sentence in a list by the source equality, mirroring the
Python `in` operator on a list of sentences. -/
def memEqv (s : Sentence) (l : List Sentence) : Bool :=
  l.any (fun t => s.eqv t)

/-- `Sentence.known_mines`: the full `cells` set when `count` equals the number
of cells, otherwise the empty set. -/
def Sentence.known_mines (s : Sentence) : Finset Cell :=
  if s.count = (s.cells.card : ℤ) then s.cells else ∅

/-- `Sentence.known_safes`: the full `cells` set when `count` is zero,
otherwise the empty set. -/
def Sentence.known_safes (s : Sentence) : Finset Cell :=
  if s.count = 0 then s.cells else ∅

/-- `Sentence.mark_mine`: if the cell is present, remove it and decrement the
count; otherwise do nothing. -/
def Sentence.mark_mine (s : Sentence) (cell : Cell) : Sentence :=
  if cell ∈ s.cells then
    { s with cells := s.cells.erase cell
             count := s.count - 1
             mine_cell := insert cell s.mine_cell }
  else s

/-- `Sentence.mark_safe`: if the cell is present, remove it (count unchanged);
otherwise do nothing. -/
def Sentence.mark_safe (s : Sentence) (cell : Cell) : Sentence :=
  if cell ∈ s.cells then
    { s with cells := s.cells.erase cell
             safe_cell := insert cell s.safe_cell }
  else s

/-- Net effect on one sentence of calling `mark_mine` once for every cell of a
set `m` of cells (the agent-level mine-marking loop): each element of
`m ∩ cells` is removed and decrements the count once, elements outside
`cells` are no-ops, and the result does not depend on the iteration order. -/
def Sentence.mark_mine_set (s : Sentence) (m : Finset Cell) : Sentence :=
  { s with cells := s.cells \ m
           count := s.count - ((s.cells ∩ m).card : ℤ)
           mine_cell := s.mine_cell ∪ (s.cells ∩ m) }

/-- Net effect on one sentence of calling `mark_safe` once for every cell of a
set `m` of cells, independent of iteration order. -/
def Sentence.mark_safe_set (s : Sentence) (m : Finset Cell) : Sentence :=
  { s with cells := s.cells \ m
           safe_cell := s.safe_cell ∪ (s.cells ∩ m) }

/-- The `MinesweeperAI` state: grid dimensions and the four global
collections. -/
structure AIState where
  height : ℤ
  width : ℤ
  moves_made : Finset Cell
  mines : Finset Cell
  safes : Finset Cell
  knowledge : List Sentence
deriving DecidableEq

/-- The `MinesweeperAI.__init__` state: all collections empty. -/
def AIState.init (height width : ℤ) : AIState :=
  ⟨height, width, ∅, ∅, ∅, []⟩

/-- `MinesweeperAI.mark_mine`: add the cell to `mines` and run
`Sentence.mark_mine` on every sentence in `knowledge`. -/
def AIState.mark_mine (st : AIState) (cell : Cell) : AIState :=
  { st with mines := insert cell st.mines
            knowledge := st.knowledge.map (fun s => s.mark_mine cell) }

/-- `MinesweeperAI.mark_safe`: add the cell to `safes` and run
`Sentence.mark_safe` on every sentence in `knowledge`. -/
def AIState.mark_safe (st : AIState) (cell : Cell) : AIState :=
  { st with safes := insert cell st.safes
            knowledge := st.knowledge.map (fun s => s.mark_safe cell) }

/-- Aggregate `known_mines` over the knowledge list (the collect loop of
`update_knowledge`; updating with an empty set is a no-op, so the source's
emptiness guard is immaterial). -/
def collectMines (knowledge : List Sentence) : Finset Cell :=
  knowledge.foldl (fun acc s => acc ∪ s.known_mines) ∅

/-- Aggregate `known_safes` over the knowledge list. -/
def collectSafes (knowledge : List Sentence) : Finset Cell :=
  knowledge.foldl (fun acc s => acc ∪ s.known_safes) ∅

/-- Body of the pairwise-inference double loop of `update_knowledge`, for a
fixed pair `(s1, s2)`: if the sentences are unequal, `s2.cells` is a
non-empty subset of `s1.cells`, and the derived count is non-negative, append
the derived sentence to the accumulator unless an equal sentence is already in
the (fixed) knowledge list `K` or in the accumulator. -/
def inferBody (K : List Sentence) (s1 s2 : Sentence) (acc : List Sentence) :
    List Sentence :=
  if !(s1.eqv s2) && decide (s2.cells ⊆ s1.cells) && !(decide (s2.cells = ∅)) then
    let newCount := s1.count - s2.count
    if 0 ≤ newCount then
      let inferred := Sentence.init (s1.cells \ s2.cells) newCount
      if memEqv inferred K || memEqv inferred acc then acc
      else acc ++ [inferred]
    else acc
  else acc

/-- The `new_sentences` list produced by one run of the pairwise-inference
double loop over the knowledge list `K`. -/
def inferNew (K : List Sentence) : List Sentence :=
  K.foldl (fun acc s1 => K.foldl (fun acc s2 => inferBody K s1 s2 acc) acc) []

/-- One iteration of the `while updated` loop of `update_knowledge`:
collect the aggregate known mines and safes, mark every collected mine not
already in `mines` (agent-level `mark_mine`), mark every collected safe
(agent-level `mark_safe`, and the source sets its change flag whenever the
aggregate safe set is non-empty), drop sentences whose `cells` is empty, run
the pairwise inference and append its results.  Returns the new state and the
`updated` flag. -/
def updatePass (st : AIState) : AIState × Bool :=
  let newMines := collectMines st.knowledge
  let newSafes := collectSafes st.knowledge
  let freshMines := newMines \ st.mines
  let st1 : AIState :=
    { st with mines := st.mines ∪ newMines
              knowledge := st.knowledge.map (fun s => s.mark_mine_set freshMines) }
  let st2 : AIState :=
    { st1 with safes := st1.safes ∪ newSafes
               knowledge := st1.knowledge.map (fun s => s.mark_safe_set newSafes) }
  let st3 : AIState :=
    { st2 with knowledge := st2.knowledge.filter (fun s => !(decide (s.cells = ∅))) }
  let newSents := inferNew st3.knowledge
  let st4 : AIState := { st3 with knowledge := st3.knowledge ++ newSents }
  (st4, !(decide (freshMines = ∅)) || !(decide (newSafes = ∅)) || !(decide (newSents = [])))

/-- `MinesweeperAI.update_knowledge`, with explicit fuel: repeat `updatePass`
while its change flag is true; `none` when the fuel runs out first. -/
def updateKnowledgeFuel : ℕ → AIState → Option AIState
  | 0, _ => none
  | fuel + 1, st =>
    let p := updatePass st
    if p.2 then updateKnowledgeFuel fuel p.1 else some p.1

/-- One step of the neighbour scan of `add_knowledge`: skip the cell itself
and out-of-bounds cells; a neighbour already in `mines` increments the local
counter, a neighbour not in `safes` joins the new sentence's cell set. -/
def scanBody (st : AIState) (cell : Cell) (acc : ℤ × Finset Cell) (rc : Cell) :
    ℤ × Finset Cell :=
  if rc = cell then acc
  else if 0 ≤ rc.1 ∧ rc.1 < st.height ∧ 0 ≤ rc.2 ∧ rc.2 < st.width then
    if rc ∈ st.mines then (acc.1 + 1, acc.2)
    else if rc ∉ st.safes then (acc.1, insert rc acc.2)
    else acc
  else acc

/-- The neighbour scan of `add_knowledge`: fold `scanBody` over the 3-by-3
block of cells around `cell` in loop order. -/
def scanNeighbours (st : AIState) (cell : Cell) : ℤ × Finset Cell :=
  ([cell.1 - 1, cell.1, cell.1 + 1].flatMap (fun r =>
      [cell.2 - 1, cell.2, cell.2 + 1].map (fun c => ((r, c) : Cell)))).foldl
    (scanBody st cell) (0, ∅)

/-- `MinesweeperAI.add_knowledge` up to (but not including) the final
`update_knowledge` call: when the cell is not an already-made move, record it
in `moves_made`, add it to `safes` (the source adds to the set directly,
without calling `mark_safe`), scan the neighbours, and append the new sentence
when its cell set is non-empty.  When the cell was already played the scan is
skipped, so the neighbour set stays empty and nothing is appended. -/
def add_knowledge_pre (st : AIState) (cell : Cell) (count : ℤ) : AIState :=
  if cell ∉ st.moves_made then
    let st1 : AIState :=
      { st with moves_made := insert cell st.moves_made
                safes := insert cell st.safes }
    let scan := scanNeighbours st1 cell
    if scan.2 ≠ ∅ then
      { st1 with knowledge := st1.knowledge ++ [Sentence.init scan.2 (count - scan.1)] }
    else st1
  else st

/-- `MinesweeperAI.add_knowledge` in full: the pre-processing step followed by
`update_knowledge` (with fuel). -/
def add_knowledge (fuel : ℕ) (st : AIState) (cell : Cell) (count : ℤ) :
    Option AIState :=
  updateKnowledgeFuel fuel (add_knowledge_pre st cell count)

/-- One step of the canonical-choice fold: combine a cell with the current
best (lexicographically least) candidate. -/
def pickStep (c : Cell) (o : Option (ℤ ×ₗ ℤ)) : Option (ℤ ×ₗ ℤ) :=
  match o with
  | none => some (toLex c)
  | some d => some (min (toLex c) d)

instance : LeftCommutative pickStep :=
  ⟨by
    intro a b o
    cases o with
    | none => simp [pickStep, min_comm]
    | some d => simp [pickStep, min_left_comm]⟩

/-- Canonical choice of an element of a finite set of cells (its
lexicographically least element), used to model taking an element from a
Python set whose iteration order is unspecified. -/
def pickCell (s : Finset Cell) : Option Cell :=
  (Multiset.foldr pickStep none s.val).map (fun d => ofLex d)

/-- `MinesweeperAI.make_safe_move`: return some cell of `safes` not yet in
`moves_made`, or `none` when there is no such cell.  The source iterates the
`safes` set in unspecified order and assigns no attribute, so it is modelled
as the canonical choice from the set difference together with the unchanged
state. -/
def make_safe_move (st : AIState) : Option Cell × AIState :=
  (pickCell (st.safes \ st.moves_made), st)

/-- `MinesweeperAI.make_random_move`: a cell of the full grid minus
`moves_made` minus `mines`, or `none` when that difference is empty.  The
random choice is modelled as the canonical choice from the difference; the
source assigns no attribute, so the state is returned unchanged. -/
def make_random_move (st : AIState) : Option Cell × AIState :=
  let all_cells := Finset.Icc (0 : ℤ) (st.height - 1) ×ˢ Finset.Icc (0 : ℤ) (st.width - 1)
  let possible_moves := (all_cells \ st.moves_made) \ st.mines
  (pickCell possible_moves, st)

/-- Specification-side set of the in-bounds neighbours of a cell: the up to 8
cells within one row and one column of `cell`, excluding `cell` itself, whose
coordinates lie inside the grid.  Written from the claim's wording, to be
compared against the neighbour scan of `add_knowledge`. -/
def inBoundsNeighbours (st : AIState) (cell : Cell) : Finset Cell :=
  (Finset.Icc (cell.1 - 1) (cell.1 + 1) ×ˢ Finset.Icc (cell.2 - 1) (cell.2 + 1)).filter
    (fun rc => rc ≠ cell ∧ 0 ≤ rc.1 ∧ rc.1 < st.height ∧ 0 ≤ rc.2 ∧ rc.2 < st.width)

/-- Consistency of a knowledge list with a fixed set `M` of true mine
positions: every sentence counts exactly the mines of `M` among its cells. -/
def consistentWith (M : Finset Cell) (K : List Sentence) : Prop :=
  ∀ s ∈ K, s.count = (((s.cells ∩ M).card : ℕ) : ℤ)

/-- Union of the cell sets of all sentences of a knowledge list. -/
def cellsOf (K : List Sentence) : Finset Cell :=
  K.foldl (fun acc s => acc ∪ s.cells) ∅

/-- The set of sentence values (cells-count pairs) occurring in a knowledge
list, up to the source's sentence equality. -/
def eqvKeys (K : List Sentence) : Finset (Finset Cell × ℤ) :=
  (K.map (fun s => (s.cells, s.count))).toFinset

/-- Termination measure for the `update_knowledge` loop, relative to a cell
universe `U0`: passes that mark a cell shrink the first summand, passes that
only derive new sentences shrink the second. -/
def passMeasure (U0 : Finset Cell) (K : List Sentence) : ℕ :=
  (2 ^ U0.card + 1) * (cellsOf K).card + (2 ^ U0.card - (eqvKeys K).card)

/-- Fuel that suffices for `update_knowledge` to reach its fixed point from a
consistent state. -/
def fuelBound (st : AIState) : ℕ :=
  (2 ^ (cellsOf st.knowledge).card + 1) * ((cellsOf st.knowledge).card + 2) + 2

/-- The agent state reached on a 3-by-3 grid by `add_knowledge((2,0), 1)`
followed by `add_knowledge((1,0), 1)` from the initial state (an honest trace
for a board whose only nearby mine is at `(1,1)`). -/
def c1TraceEnd : AIState :=
  ⟨3, 3, {((2:ℤ),(0:ℤ)), ((1:ℤ),(0:ℤ))}, ∅, {((2:ℤ),(0:ℤ)), ((1:ℤ),(0:ℤ))},
   [⟨{((1:ℤ),(0:ℤ)), ((1:ℤ),(1:ℤ)), ((2:ℤ),(1:ℤ))}, 1, ∅, ∅⟩,
    ⟨{((0:ℤ),(0:ℤ)), ((0:ℤ),(1:ℤ)), ((1:ℤ),(1:ℤ)), ((2:ℤ),(1:ℤ))}, 1, ∅, ∅⟩]⟩

/-- Knowledge list used to witness the pairwise subset inference. -/
def c2Know : List Sentence :=
  [Sentence.init {((0:ℤ),(0:ℤ)), ((0:ℤ),(1:ℤ))} 1, Sentence.init {((0:ℤ),(0:ℤ))} 1]

/-- Start state used to witness the all-mines and all-safe laws: one sentence
forcing a mine at `(0,0)` and one forcing a safe at `(1,1)`. -/
def c3Start : AIState :=
  ⟨3, 3, ∅, ∅, ∅, [Sentence.init {((0:ℤ),(0:ℤ))} 1, Sentence.init {((1:ℤ),(1:ℤ))} 0]⟩

/-- The fixed point that `update_knowledge` reaches from `c3Start`. -/
def c3End : AIState := ⟨3, 3, ∅, {((0:ℤ),(0:ℤ))}, {((1:ℤ),(1:ℤ))}, []⟩

/-- A knowledge-base state from which the `update_knowledge` loop never
terminates: two sentences over the same cells with different counts. -/
def c4Bad : AIState :=
  ⟨3, 3, ∅, ∅, ∅,
   [Sentence.init {((0:ℤ),(0:ℤ)), ((0:ℤ),(1:ℤ)), ((0:ℤ),(2:ℤ))} 1,
    Sentence.init {((0:ℤ),(0:ℤ)), ((0:ℤ),(1:ℤ)), ((0:ℤ),(2:ℤ))} 2]⟩

/-- The state one pass after `c4Bad`, which every further pass reproduces
while still reporting a change: the empty sentence with count 1 is dropped
and immediately re-derived. -/
def c4Cycle : AIState :=
  ⟨3, 3, ∅, ∅, ∅,
   [Sentence.init {((0:ℤ),(0:ℤ)), ((0:ℤ),(1:ℤ)), ((0:ℤ),(2:ℤ))} 1,
    Sentence.init {((0:ℤ),(0:ℤ)), ((0:ℤ),(1:ℤ)), ((0:ℤ),(2:ℤ))} 2,
    Sentence.init ∅ 1]⟩

/-- A small consistent state (true mine set `{(0,0)}`) used to witness
termination of the inference loop. -/
def c4Consistent : AIState :=
  ⟨2, 2, ∅, ∅, ∅, [Sentence.init {((0:ℤ),(0:ℤ))} 1]⟩

/-- The converged state reached on a 2-by-2 grid by `add_knowledge((0,0), 1)`
from the initial state. -/
def ai22Converged : AIState :=
  ⟨2, 2, {((0:ℤ),(0:ℤ))}, ∅, {((0:ℤ),(0:ℤ))},
   [Sentence.init {((0:ℤ),(1:ℤ)), ((1:ℤ),(0:ℤ)), ((1:ℤ),(1:ℤ))} 1]⟩

/-- The state reached from `ai22Converged` by the public call
`mark_mine((0,1))`, which leaves a count-zero sentence in the knowledge
base. -/
def c6Start : AIState :=
  ⟨2, 2, {((0:ℤ),(0:ℤ))}, {((0:ℤ),(1:ℤ))}, {((0:ℤ),(0:ℤ))},
   [⟨{((1:ℤ),(0:ℤ)), ((1:ℤ),(1:ℤ))}, 0, {((0:ℤ),(1:ℤ))}, ∅⟩]⟩

/-- The state `add_knowledge` reaches from `c6Start` for the already-played
cell `(0,0)`: the call is not a no-op, its inference pass marks two new
safes. -/
def c6End : AIState :=
  ⟨2, 2, {((0:ℤ),(0:ℤ))}, {((0:ℤ),(1:ℤ))},
   {((0:ℤ),(0:ℤ)), ((1:ℤ),(0:ℤ)), ((1:ℤ),(1:ℤ))}, []⟩

/-- State used to witness safe-move selection. -/
def c8State : AIState := ⟨2, 2, ∅, ∅, {((0:ℤ),(0:ℤ))}, []⟩

/-- Boolean equality test on sentences, component by component.  Unlike the
derived decidable equality it evaluates by plain reduction, so concrete
executions of the model can be checked by `rfl`. -/
def beqSentence (s t : Sentence) : Bool :=
  decide (s.cells = t.cells) && decide (s.count = t.count) &&
  decide (s.mine_cell = t.mine_cell) && decide (s.safe_cell = t.safe_cell)

/-- Boolean equality test on knowledge lists. -/
def beqKnowledge : List Sentence → List Sentence → Bool
  | [], [] => true
  | s :: l, t :: m => beqSentence s t && beqKnowledge l m
  | _, _ => false

/-- Boolean equality test on agent states. -/
def beqState (a b : AIState) : Bool :=
  decide (a.height = b.height) && decide (a.width = b.width) &&
  decide (a.moves_made = b.moves_made) && decide (a.mines = b.mines) &&
  decide (a.safes = b.safes) && beqKnowledge a.knowledge b.knowledge

/-- Boolean equality test on optional agent states. -/
def beqOptionState : Option AIState → Option AIState → Bool
  | none, none => true
  | some a, some b => beqState a b
  | _, _ => false

/-- The knowledge list after the two marking loops of one `update_knowledge`
pass (mine marking with the collected fresh mines, then safe marking). -/
def passMarked (st : AIState) : List Sentence :=
  (st.knowledge.map (fun s =>
      s.mark_mine_set (collectMines st.knowledge \ st.mines))).map
    (fun s => s.mark_safe_set (collectSafes st.knowledge))

/-- The knowledge list of one pass after also dropping empty sentences; the
pairwise inference of the pass runs over this list. -/
def passKept (st : AIState) : List Sentence :=
  (passMarked st).filter (fun s => !(decide (s.cells = ∅)))

/-- Shape of every sentence produced by the pairwise-inference step over the
knowledge list `K`: it is new (no equal sentence in `K`), its count is
non-negative, its bookkeeping sets are empty, and it is the set difference of
an eligible ordered pair of sentences of `K`. -/
def InferShape (K : List Sentence) (x : Sentence) : Prop :=
  memEqv x K = false ∧ 0 ≤ x.count ∧ x.mine_cell = ∅ ∧ x.safe_cell = ∅ ∧
  ∃ s1 ∈ K, ∃ s2 ∈ K, s1.eqv s2 = false ∧ s2.cells ⊆ s1.cells ∧ s2.cells ≠ ∅ ∧
    x.cells = s1.cells \ s2.cells ∧ x.count = s1.count - s2.count

/-! Bridge lemmas between the executable definitions and their set-level
descriptions. -/

theorem beqSentence_eq {s t : Sentence} (h : beqSentence s t = true) : s = t := by
  simp only [beqSentence, Bool.and_eq_true, decide_eq_true_eq] at h
  obtain ⟨⟨⟨h1, h2⟩, h3⟩, h4⟩ := h
  cases s
  cases t
  simp_all

theorem beqKnowledge_eq {l m : List Sentence} (h : beqKnowledge l m = true) :
    l = m := by
  induction l generalizing m with
  | nil =>
      cases m with
      | nil => rfl
      | cons t m => simp [beqKnowledge] at h
  | cons s l ih =>
      cases m with
      | nil => simp [beqKnowledge] at h
      | cons t m =>
          simp only [beqKnowledge, Bool.and_eq_true] at h
          rw [beqSentence_eq h.1, ih h.2]

theorem beqState_eq {a b : AIState} (h : beqState a b = true) : a = b := by
  simp only [beqState, Bool.and_eq_true, decide_eq_true_eq] at h
  obtain ⟨⟨⟨⟨⟨h1, h2⟩, h3⟩, h4⟩, h5⟩, h6⟩ := h
  have h7 := beqKnowledge_eq h6
  cases a
  cases b
  simp_all

theorem beqOptionState_eq {o p : Option AIState}
    (h : beqOptionState o p = true) : o = p := by
  match o, p with
  | none, none => rfl
  | none, some b => exact absurd h (by simp [beqOptionState])
  | some a, none => exact absurd h (by simp [beqOptionState])
  | some a, some b => exact congrArg some (beqState_eq h)

theorem eqv_iff {s t : Sentence} :
    s.eqv t = true ↔ (s.cells = t.cells ∧ s.count = t.count) := by
  simp [Sentence.eqv]

theorem memEqv_iff {s : Sentence} {l : List Sentence} :
    memEqv s l = true ↔ ∃ t ∈ l, s.cells = t.cells ∧ s.count = t.count := by
  simp [memEqv, List.any_eq_true, eqv_iff]

theorem pickFold_eq_none {m : Multiset Cell} :
    Multiset.foldr pickStep none m = none ↔ m = 0 := by
  induction m using Multiset.induction_on with
  | empty => simp
  | cons a m ih =>
      constructor
      · intro h
        rw [Multiset.foldr_cons] at h
        cases hm : Multiset.foldr pickStep none m <;> simp [pickStep, hm] at h
      · intro h
        exact absurd h (Multiset.cons_ne_zero)

theorem pickFold_mem {m : Multiset Cell} :
    ∀ {d : ℤ ×ₗ ℤ}, Multiset.foldr pickStep none m = some d → ofLex d ∈ m := by
  induction m using Multiset.induction_on with
  | empty => intro d h; simp at h
  | cons a m ih =>
      intro d h
      rw [Multiset.foldr_cons] at h
      cases hm : Multiset.foldr pickStep none m with
      | none =>
          rw [hm] at h
          simp only [pickStep, Option.some.injEq] at h
          subst h
          simp
      | some e =>
          rw [hm] at h
          simp only [pickStep, Option.some.injEq] at h
          subst h
          rcases min_cases (toLex a) e with ⟨hmin, _⟩ | ⟨hmin, _⟩
          · rw [hmin]
            simp
          · rw [hmin]
            exact Multiset.mem_cons_of_mem (ih hm)

theorem pickCell_eq_none {s : Finset Cell} :
    pickCell s = none ↔ s = ∅ := by
  unfold pickCell
  constructor
  · intro h
    cases hm : Multiset.foldr pickStep none s.val with
    | none => exact Finset.val_eq_zero.mp (pickFold_eq_none.mp hm)
    | some d => rw [hm] at h; cases h
  · intro h
    subst h
    rfl

theorem pickCell_mem {s : Finset Cell} {c : Cell} (h : pickCell s = some c) :
    c ∈ s := by
  unfold pickCell at h
  cases hm : Multiset.foldr pickStep none s.val with
  | none => rw [hm] at h; cases h
  | some d =>
      rw [hm] at h
      simp only [Option.map_some', Option.some.injEq] at h
      subst h
      exact pickFold_mem hm

theorem mark_mine_idem (s : Sentence) (c : Cell) :
    (s.mark_mine c).mark_mine c = s.mark_mine c := by
  by_cases h : c ∈ s.cells
  · simp [Sentence.mark_mine, h]
  · simp [Sentence.mark_mine, h]

theorem mark_safe_idem (s : Sentence) (c : Cell) :
    (s.mark_safe c).mark_safe c = s.mark_safe c := by
  by_cases h : c ∈ s.cells
  · simp [Sentence.mark_safe, h]
  · simp [Sentence.mark_safe, h]

/-- C7: calling the agent's `mark_mine` (respectively `mark_safe`) twice on
the same cell leaves the whole agent state (in particular `mines`, `safes`,
`moves_made`, and every sentence's `cells` and `count`) identical to calling
it once. -/
theorem c7_mark_idempotent (st : AIState) (cell : Cell) :
    AIState.mark_mine (AIState.mark_mine st cell) cell = AIState.mark_mine st cell ∧
    AIState.mark_safe (AIState.mark_safe st cell) cell = AIState.mark_safe st cell := by
  constructor
  · simp [AIState.mark_mine, List.map_map, Function.comp_def, mark_mine_idem]
  · simp [AIState.mark_safe, List.map_map, Function.comp_def, mark_safe_idem]

/-- C8: `make_safe_move` returns a cell of `safes` that is not in
`moves_made` whenever `safes` minus `moves_made` is non-empty, returns `none`
exactly when that difference is empty, and leaves the agent state
unchanged. -/
theorem c8_make_safe_move (st : AIState) :
    (∀ c : Cell, (make_safe_move st).1 = some c → c ∈ st.safes ∧ c ∉ st.moves_made) ∧
    ((make_safe_move st).1 = none ↔ st.safes \ st.moves_made = ∅) ∧
    (make_safe_move st).2 = st := by
  refine ⟨?_, ⟨?_, ?_⟩, rfl⟩
  · intro c hc
    have hd := pickCell_mem hc
    simpa [Finset.mem_sdiff] using hd
  · intro h
    exact pickCell_eq_none.mp h
  · intro h
    exact pickCell_eq_none.mpr h

/-- Witness for C8 at a concrete state. -/
theorem c8_witness :
    (((0:ℤ),(0:ℤ)) ∈ c8State.safes ∧ ((0:ℤ),(0:ℤ)) ∉ c8State.moves_made) ∧
    (make_safe_move c8State).2 = c8State :=
  ⟨(c8_make_safe_move c8State).1 ((0:ℤ),(0:ℤ)) (by decide),
   (c8_make_safe_move c8State).2.2⟩

/-- C1: the claimed invariant fails on the code.  On an honest 3-by-3 trace
(the board's only mine near these cells at (1,1)), after
`add_knowledge((2,0), 1)` and then `add_knowledge((1,0), 1)` the cell (1,0)
is in `safes` and still occurs in the cells of a sentence of `knowledge`:
`add_knowledge` adds the played cell to `safes` directly instead of calling
`mark_safe`, so existing sentences are never purged of it. -/
theorem c1_invariant_violation :
    (add_knowledge 2 (AIState.init 3 3) ((2:ℤ),(0:ℤ)) 1).bind
        (fun st1 => add_knowledge 2 st1 ((1:ℤ),(0:ℤ)) 1) = some c1TraceEnd ∧
    ((1:ℤ),(0:ℤ)) ∈ c1TraceEnd.safes ∧
    ∃ s ∈ c1TraceEnd.knowledge, ((1:ℤ),(0:ℤ)) ∈ s.cells := by
  refine ⟨beqOptionState_eq (by rfl), by decide, ?_⟩
  exact ⟨⟨{((1:ℤ),(0:ℤ)), ((1:ℤ),(1:ℤ)), ((2:ℤ),(1:ℤ))}, 1, ∅, ∅⟩,
    by decide, by decide⟩

/-- C6 counterexample: for a reachable state (`c6Start`, obtained by public
operations from the initial 2-by-2 state) and the already-played cell (0,0),
`add_knowledge` is not a no-op: its trailing inference pass adds two cells to
`safes`. -/
theorem c6_counterexample :
    (add_knowledge 2 (AIState.init 2 2) ((0:ℤ),(0:ℤ)) 1).map
        (fun st1 => AIState.mark_mine st1 ((0:ℤ),(1:ℤ))) = some c6Start ∧
    ((0:ℤ),(0:ℤ)) ∈ c6Start.moves_made ∧
    add_knowledge 2 c6Start ((0:ℤ),(0:ℤ)) 5 = some c6End ∧
    c6End.safes ≠ c6Start.safes := by
  refine ⟨beqOptionState_eq (by rfl), by decide, beqOptionState_eq (by rfl), by decide⟩

/-- C6 amended: for a cell already in `moves_made`, `add_knowledge` records
no move and appends no sentence — the call reduces to running
`update_knowledge` on the unchanged state — and when the state is already at
a fixed point of the inference pass (as it is after any completed
`add_knowledge`), the call is a complete no-op. -/
theorem c6_amended_noop (st : AIState) (cell : Cell) (cnt : ℤ) (n : ℕ)
    (h : cell ∈ st.moves_made) :
    add_knowledge (n + 1) st cell cnt = updateKnowledgeFuel (n + 1) st ∧
    (updatePass st = (st, false) → add_knowledge (n + 1) st cell cnt = some st) := by
  have hpre : add_knowledge_pre st cell cnt = st := by
    unfold add_knowledge_pre
    rw [if_neg (by simp [h])]
  constructor
  · unfold add_knowledge
    rw [hpre]
  · intro hfix
    unfold add_knowledge
    rw [hpre]
    simp [updateKnowledgeFuel, hfix]

/-- Witness for C6 amended: at a converged reachable state, re-adding
knowledge for the played cell (0,0) is a no-op. -/
theorem c6_witness :
    add_knowledge 2 ai22Converged ((0:ℤ),(0:ℤ)) 7 = some ai22Converged :=
  (c6_amended_noop ai22Converged ((0:ℤ),(0:ℤ)) 7 1 (by decide)).2
    (Prod.ext (beqState_eq (by rfl)) (by rfl))

theorem mem_foldl_union (f : Sentence → Finset Cell) (K : List Sentence)
    (init : Finset Cell) (c : Cell) :
    c ∈ K.foldl (fun acc s => acc ∪ f s) init ↔ c ∈ init ∨ ∃ s ∈ K, c ∈ f s := by
  induction K generalizing init with
  | nil => simp
  | cons y t ih =>
      rw [List.foldl_cons, ih]
      simp only [Finset.mem_union, List.exists_mem_cons_iff]
      tauto

theorem mem_collectMines {K : List Sentence} {c : Cell} :
    c ∈ collectMines K ↔ ∃ s ∈ K, c ∈ s.known_mines := by
  rw [collectMines, mem_foldl_union]
  simp

theorem mem_collectSafes {K : List Sentence} {c : Cell} :
    c ∈ collectSafes K ↔ ∃ s ∈ K, c ∈ s.known_safes := by
  rw [collectSafes, mem_foldl_union]
  simp

theorem mem_cellsOf {K : List Sentence} {c : Cell} :
    c ∈ cellsOf K ↔ ∃ s ∈ K, c ∈ s.cells := by
  rw [cellsOf, mem_foldl_union]
  simp

theorem updatePass_mines (st : AIState) :
    (updatePass st).1.mines = st.mines ∪ collectMines st.knowledge := rfl

theorem updatePass_safes (st : AIState) :
    (updatePass st).1.safes = st.safes ∪ collectSafes st.knowledge := rfl

theorem updatePass_moves (st : AIState) :
    (updatePass st).1.moves_made = st.moves_made := rfl

theorem updatePass_dims (st : AIState) :
    (updatePass st).1.height = st.height ∧ (updatePass st).1.width = st.width :=
  ⟨rfl, rfl⟩

theorem updateKnowledgeFuel_mono {n : ℕ} {st stFinal : AIState}
    (h : updateKnowledgeFuel n st = some stFinal) :
    st.mines ⊆ stFinal.mines ∧ st.safes ⊆ stFinal.safes ∧
    st.moves_made = stFinal.moves_made ∧ st.height = stFinal.height ∧
    st.width = stFinal.width := by
  induction n generalizing st with
  | zero => cases h
  | succ n ih =>
      simp only [updateKnowledgeFuel] at h
      by_cases hp : (updatePass st).2 = true
      · rw [if_pos hp] at h
        have hrec := ih h
        have hm : st.mines ⊆ (updatePass st).1.mines := by
          rw [updatePass_mines]
          exact Finset.subset_union_left
        have hsf : st.safes ⊆ (updatePass st).1.safes := by
          rw [updatePass_safes]
          exact Finset.subset_union_left
        refine ⟨?_, ?_, ?_, ?_, ?_⟩
        · exact hm.trans hrec.1
        · exact hsf.trans hrec.2.1
        · exact (updatePass_moves st).symm.trans hrec.2.2.1
        · exact ((updatePass_dims st).1).symm.trans hrec.2.2.2.1
        · exact ((updatePass_dims st).2).symm.trans hrec.2.2.2.2
      · rw [if_neg hp] at h
        obtain rfl := Option.some.inj h
        refine ⟨?_, ?_, (updatePass_moves st).symm, ((updatePass_dims st).1).symm,
          ((updatePass_dims st).2).symm⟩
        · rw [updatePass_mines]
          exact Finset.subset_union_left
        · rw [updatePass_safes]
          exact Finset.subset_union_left

/-- C3: if the knowledge base holds a sentence whose count equals the number
of its cells at the start of the inference fixed point, then whenever the
fixed point converges every cell of that sentence ends in `mines`;
symmetrically a count-zero sentence sends all its cells to `safes`.  The
second conjunct records the `known_mines` and `known_safes` definitions
underlying this. -/
theorem c3_fixed_point_laws {n : ℕ} {st stFinal : AIState}
    (h : updateKnowledgeFuel n st = some stFinal) :
    (∀ s ∈ st.knowledge,
        (s.count = (s.cells.card : ℤ) → s.cells ⊆ stFinal.mines) ∧
        (s.count = 0 → s.cells ⊆ stFinal.safes)) ∧
    (∀ s : Sentence,
        s.known_mines = (if s.count = (s.cells.card : ℤ) then s.cells else ∅) ∧
        s.known_safes = (if s.count = 0 then s.cells else ∅)) := by
  refine ⟨?_, fun s => ⟨rfl, rfl⟩⟩
  intro s hs
  have hmines1 : s.count = (s.cells.card : ℤ) → s.cells ⊆ (updatePass st).1.mines := by
    intro hc c hcc
    rw [updatePass_mines]
    refine Finset.mem_union_right _ ?_
    rw [mem_collectMines]
    refine ⟨s, hs, ?_⟩
    rw [Sentence.known_mines, if_pos hc]
    exact hcc
  have hsafes1 : s.count = 0 → s.cells ⊆ (updatePass st).1.safes := by
    intro hc c hcc
    rw [updatePass_safes]
    refine Finset.mem_union_right _ ?_
    rw [mem_collectSafes]
    refine ⟨s, hs, ?_⟩
    rw [Sentence.known_safes, if_pos hc]
    exact hcc
  cases n with
  | zero => cases h
  | succ n =>
      simp only [updateKnowledgeFuel] at h
      by_cases hp : (updatePass st).2 = true
      · rw [if_pos hp] at h
        have hrec := updateKnowledgeFuel_mono h
        exact ⟨fun hc => (hmines1 hc).trans hrec.1, fun hc => (hsafes1 hc).trans hrec.2.1⟩
      · rw [if_neg hp] at h
        obtain rfl := Option.some.inj h
        exact ⟨hmines1, hsafes1⟩

/-- Witness for C3 at a concrete state holding one all-mines sentence and one
all-safe sentence. -/
theorem c3_witness :
    updateKnowledgeFuel 2 c3Start = some c3End ∧
    ((0:ℤ),(0:ℤ)) ∈ c3End.mines ∧ ((1:ℤ),(1:ℤ)) ∈ c3End.safes := by
  have heq : updateKnowledgeFuel 2 c3Start = some c3End := beqOptionState_eq (by rfl)
  have hlaws := (c3_fixed_point_laws heq).1
  refine ⟨heq, ?_, ?_⟩
  · exact (hlaws (Sentence.init {((0:ℤ),(0:ℤ))} 1) (List.Mem.head _)).1
      (by decide) (by decide)
  · exact (hlaws (Sentence.init {((1:ℤ),(1:ℤ))} 0) (List.Mem.tail _ (List.Mem.head _))).2
      (by decide) (by decide)

theorem add_knowledge_pre_mono (st : AIState) (cell : Cell) (cnt : ℤ) :
    st.moves_made ⊆ (add_knowledge_pre st cell cnt).moves_made ∧
    st.safes ⊆ (add_knowledge_pre st cell cnt).safes ∧
    st.mines = (add_knowledge_pre st cell cnt).mines := by
  simp only [add_knowledge_pre]
  split_ifs with h1 h2 <;>
    refine ⟨?_, ?_, rfl⟩ <;>
    first
      | exact subset_rfl
      | exact Finset.subset_insert _ _

/-- C10: the three global sets grow monotonically under every public
operation: the mark operations and `add_knowledge` only insert into
`moves_made`, `safes` and `mines`, and the move-selection operations do not
touch the state at all. -/
theorem c10_sets_monotone (st stFinal : AIState) (cell : Cell) (cnt : ℤ) (n : ℕ) :
    (st.moves_made ⊆ (st.mark_mine cell).moves_made ∧
      st.safes ⊆ (st.mark_mine cell).safes ∧
      st.mines ⊆ (st.mark_mine cell).mines) ∧
    (st.moves_made ⊆ (st.mark_safe cell).moves_made ∧
      st.safes ⊆ (st.mark_safe cell).safes ∧
      st.mines ⊆ (st.mark_safe cell).mines) ∧
    (add_knowledge n st cell cnt = some stFinal →
      st.moves_made ⊆ stFinal.moves_made ∧ st.safes ⊆ stFinal.safes ∧
      st.mines ⊆ stFinal.mines) ∧
    (make_safe_move st).2 = st ∧ (make_random_move st).2 = st := by
  refine ⟨⟨subset_rfl, subset_rfl, Finset.subset_insert _ _⟩,
    ⟨subset_rfl, Finset.subset_insert _ _, subset_rfl⟩, ?_, rfl, rfl⟩
  intro h
  have hpre := add_knowledge_pre_mono st cell cnt
  have h2 : updateKnowledgeFuel n (add_knowledge_pre st cell cnt) = some stFinal := h
  have hrec := updateKnowledgeFuel_mono h2
  have hmoves : st.moves_made ⊆ stFinal.moves_made := by
    have hp := hpre.1
    rw [hrec.2.2.1] at hp
    exact hp
  have hmines : st.mines ⊆ (add_knowledge_pre st cell cnt).mines := by
    rw [← hpre.2.2]
  exact ⟨hmoves, hpre.2.1.trans hrec.2.1, hmines.trans hrec.1⟩

/-- Witness for C10 on a concrete `add_knowledge` run. -/
theorem c10_witness :
    (AIState.init 2 2).moves_made ⊆ ai22Converged.moves_made ∧
    (AIState.init 2 2).safes ⊆ ai22Converged.safes ∧
    (AIState.init 2 2).mines ⊆ ai22Converged.mines :=
  (c10_sets_monotone (AIState.init 2 2) ai22Converged ((0:ℤ),(0:ℤ)) 1 2).2.2.1
    (beqOptionState_eq (by rfl))

theorem inferBody_append (K : List Sentence) (s1 s2 : Sentence) (acc : List Sentence) :
    ∃ t, inferBody K s1 s2 acc = acc ++ t := by
  simp only [inferBody]
  split_ifs <;> first | exact ⟨_, rfl⟩ | exact ⟨[], by simp⟩

theorem foldl_append_of {f : List Sentence → Sentence → List Sentence}
    (hf : ∀ acc y, ∃ t, f acc y = acc ++ t) (l : List Sentence) (acc : List Sentence) :
    ∃ t, l.foldl f acc = acc ++ t := by
  induction l generalizing acc with
  | nil => exact ⟨[], by simp⟩
  | cons y l ih =>
      obtain ⟨t1, ht1⟩ := hf acc y
      obtain ⟨t2, ht2⟩ := ih (f acc y)
      refine ⟨t1 ++ t2, ?_⟩
      rw [List.foldl_cons, ht2, ht1, List.append_assoc]

theorem memEqv_append {s : Sentence} {l m : List Sentence} :
    memEqv s (l ++ m) = (memEqv s l || memEqv s m) := by
  simp [memEqv, List.any_append]

theorem inferBody_hits {K : List Sentence} {s1 s2 : Sentence} (acc : List Sentence)
    (hne : s1.eqv s2 = false) (hsub : s2.cells ⊆ s1.cells) (hcne : s2.cells ≠ ∅)
    (hnn : 0 ≤ s1.count - s2.count) :
    memEqv (Sentence.init (s1.cells \ s2.cells) (s1.count - s2.count)) K = true ∨
    memEqv (Sentence.init (s1.cells \ s2.cells) (s1.count - s2.count))
      (inferBody K s1 s2 acc) = true := by
  have hcond : (!(s1.eqv s2) && decide (s2.cells ⊆ s1.cells) &&
      !(decide (s2.cells = ∅))) = true := by
    rw [hne]
    simp [hsub, hcne]
  simp only [inferBody]
  rw [if_pos hcond, if_pos hnn]
  by_cases hK : memEqv (Sentence.init (s1.cells \ s2.cells) (s1.count - s2.count)) K = true
  · exact Or.inl hK
  · right
    by_cases hacc :
        memEqv (Sentence.init (s1.cells \ s2.cells) (s1.count - s2.count)) acc = true
    · rw [if_pos (by rw [hacc]; simp)]
      exact hacc
    · rw [if_neg (by simp [Bool.or_eq_true, hK, hacc])]
      rw [memEqv_append]
      have hself : memEqv (Sentence.init (s1.cells \ s2.cells) (s1.count - s2.count))
          [Sentence.init (s1.cells \ s2.cells) (s1.count - s2.count)] = true := by
        simp [memEqv, Sentence.eqv]
      rw [hself]
      simp

theorem innerFold_hits {K : List Sentence} {s1 s2 : Sentence}
    (hne : s1.eqv s2 = false) (hsub : s2.cells ⊆ s1.cells) (hcne : s2.cells ≠ ∅)
    (hnn : 0 ≤ s1.count - s2.count) :
    ∀ (l : List Sentence) (acc : List Sentence), s2 ∈ l →
      memEqv (Sentence.init (s1.cells \ s2.cells) (s1.count - s2.count)) K = true ∨
      memEqv (Sentence.init (s1.cells \ s2.cells) (s1.count - s2.count))
        (l.foldl (fun acc s2x => inferBody K s1 s2x acc) acc) = true := by
  intro l
  induction l with
  | nil => intro acc h; cases h
  | cons y t ih =>
      intro acc hmem
      rw [List.foldl_cons]
      rcases List.mem_cons.mp hmem with rfl | hmem2
      · rcases inferBody_hits acc hne hsub hcne hnn with h | h
        · exact Or.inl h
        · right
          obtain ⟨tail, htail⟩ :=
            foldl_append_of (fun a yy => inferBody_append K s1 yy a) t
              (inferBody K s1 s2 acc)
          rw [htail, memEqv_append, h]
          simp
      · exact ih (inferBody K s1 y acc) hmem2

theorem outerFold_hits {K : List Sentence} {A B : Sentence}
    (hne : A.eqv B = false) (hsub : B.cells ⊆ A.cells) (hcne : B.cells ≠ ∅)
    (hnn : 0 ≤ A.count - B.count) (hB : B ∈ K) :
    ∀ (l : List Sentence) (acc : List Sentence), A ∈ l →
      memEqv (Sentence.init (A.cells \ B.cells) (A.count - B.count)) K = true ∨
      memEqv (Sentence.init (A.cells \ B.cells) (A.count - B.count))
        (l.foldl (fun acc s1x =>
          K.foldl (fun acc s2x => inferBody K s1x s2x acc) acc) acc) = true := by
  intro l
  induction l with
  | nil => intro acc h; cases h
  | cons y t ih =>
      intro acc hmem
      rw [List.foldl_cons]
      rcases List.mem_cons.mp hmem with rfl | hmem2
      · rcases innerFold_hits hne hsub hcne hnn K acc hB with h | h
        · exact Or.inl h
        · right
          have hinner : ∀ (a : List Sentence) (yy : Sentence),
              ∃ t2, K.foldl (fun acc s2x => inferBody K yy s2x acc) a = a ++ t2 :=
            fun a yy => foldl_append_of (fun a2 y2 => inferBody_append K yy y2 a2) K a
          obtain ⟨tail, htail⟩ :=
            foldl_append_of hinner t (K.foldl (fun acc s2x => inferBody K A s2x acc) acc)
          rw [htail, memEqv_append, h]
          simp
      · exact ih _ hmem2

theorem inferBody_shape {K : List Sentence} {s1 s2 : Sentence} {acc : List Sentence}
    (hacc : ∀ x ∈ acc, InferShape K x) (hs1 : s1 ∈ K) (hs2 : s2 ∈ K) :
    ∀ x ∈ inferBody K s1 s2 acc, InferShape K x := by
  intro x hx
  simp only [inferBody] at hx
  by_cases hcond : (!(s1.eqv s2) && decide (s2.cells ⊆ s1.cells) &&
      !(decide (s2.cells = ∅))) = true
  · rw [if_pos hcond] at hx
    by_cases hnn : (0:ℤ) ≤ s1.count - s2.count
    · rw [if_pos hnn] at hx
      by_cases hmem : (memEqv (Sentence.init (s1.cells \ s2.cells) (s1.count - s2.count)) K ||
          memEqv (Sentence.init (s1.cells \ s2.cells) (s1.count - s2.count)) acc) = true
      · rw [if_pos hmem] at hx
        exact hacc x hx
      · rw [if_neg hmem] at hx
        rcases List.mem_append.mp hx with hx2 | hx2
        · exact hacc x hx2
        · have hxe : x = Sentence.init (s1.cells \ s2.cells) (s1.count - s2.count) := by
            simpa using hx2
          subst hxe
          simp only [Bool.and_eq_true, Bool.not_eq_true', decide_eq_true_eq,
            decide_eq_false_iff_not] at hcond
          simp only [Bool.or_eq_true, not_or, Bool.not_eq_true] at hmem
          exact ⟨hmem.1, hnn, rfl, rfl, s1, hs1, s2, hs2, hcond.1.1, hcond.1.2,
            hcond.2, rfl, rfl⟩
    · rw [if_neg hnn] at hx
      exact hacc x hx
  · rw [if_neg hcond] at hx
    exact hacc x hx

theorem innerFold_shape {K : List Sentence} {s1 : Sentence} (hs1 : s1 ∈ K) :
    ∀ (l : List Sentence), (∀ y ∈ l, y ∈ K) → ∀ (acc : List Sentence),
      (∀ x ∈ acc, InferShape K x) →
      ∀ x ∈ l.foldl (fun acc s2 => inferBody K s1 s2 acc) acc, InferShape K x := by
  intro l
  induction l with
  | nil => intro _ acc hacc x hx; exact hacc x hx
  | cons y t ih =>
      intro hl acc hacc
      rw [List.foldl_cons]
      exact ih (fun z hz => hl z (List.mem_cons_of_mem _ hz)) _
        (inferBody_shape hacc hs1 (hl y (List.mem_cons_self _ _)))

theorem inferNew_shape (K : List Sentence) :
    ∀ x ∈ inferNew K, InferShape K x := by
  have hgen : ∀ (l : List Sentence), (∀ y ∈ l, y ∈ K) → ∀ (acc : List Sentence),
      (∀ x ∈ acc, InferShape K x) →
      ∀ x ∈ l.foldl (fun acc s1 =>
        K.foldl (fun acc s2 => inferBody K s1 s2 acc) acc) acc, InferShape K x := by
    intro l
    induction l with
    | nil => intro _ acc hacc x hx; exact hacc x hx
    | cons y t ih =>
        intro hl acc hacc
        rw [List.foldl_cons]
        refine ih (fun z hz => hl z (List.mem_cons_of_mem _ hz)) _ ?_
        exact innerFold_shape (hl y (List.mem_cons_self _ _)) K (fun z hz => hz) acc hacc
  exact hgen K (fun z hz => hz) [] (fun x hx => absurd hx (List.not_mem_nil x))

/-- C2: for sentences `A` and `B` of the knowledge list at the pairwise
inference step, with `B.cells` a non-empty subset of `A.cells` and `A`, `B`
unequal as sentences, the knowledge list extended with this pass's derived
sentences contains a sentence with cells `A.cells - B.cells` and count
`A.count - B.count` whenever that count is non-negative, and no derived
sentence ever has a negative count. -/
theorem c2_subset_inference (K : List Sentence) (A B : Sentence)
    (hA : A ∈ K) (hB : B ∈ K)
    (hne : ¬ (A.cells = B.cells ∧ A.count = B.count))
    (hsub : B.cells ⊆ A.cells) (hcne : B.cells ≠ ∅) :
    (0 ≤ A.count - B.count →
      ∃ S ∈ K ++ inferNew K,
        S.cells = A.cells \ B.cells ∧ S.count = A.count - B.count) ∧
    (∀ S ∈ inferNew K, 0 ≤ S.count) := by
  constructor
  · intro hnn
    have hne2 : A.eqv B = false := by
      rw [Bool.eq_false_iff]
      intro hx
      exact hne (eqv_iff.mp hx)
    rcases outerFold_hits hne2 hsub hcne hnn hB K [] hA with h | h
    · obtain ⟨t, ht, hc, hcount⟩ := memEqv_iff.mp h
      exact ⟨t, List.mem_append_left _ ht, hc.symm, hcount.symm⟩
    · obtain ⟨t, ht, hc, hcount⟩ := memEqv_iff.mp h
      exact ⟨t, List.mem_append_right _ ht, hc.symm, hcount.symm⟩
  · intro S hS
    exact (inferNew_shape K S hS).2.1

/-- Witness for C2: from `{(0,0),(0,1)} = 1` and `{(0,0)} = 1` the pass
derives the sentence `{(0,1)} = 0`. -/
theorem c2_witness :
    memEqv (Sentence.init {((0:ℤ),(1:ℤ))} 0) (c2Know ++ inferNew c2Know) = true := by
  have h := (c2_subset_inference c2Know
      (Sentence.init {((0:ℤ),(0:ℤ)), ((0:ℤ),(1:ℤ))} 1)
      (Sentence.init {((0:ℤ),(0:ℤ))} 1)
      (List.Mem.head _) (List.Mem.tail _ (List.Mem.head _))
      (by decide) (by decide) (by decide)).1 (by decide)
  obtain ⟨S, hS, hc, hcount⟩ := h
  rw [memEqv_iff]
  refine ⟨S, hS, ?_, ?_⟩
  · rw [hc]
    decide
  · rw [hcount]
    decide

theorem scanFold_spec (st : AIState) (cell : Cell) (L : List Cell)
    (acc : ℤ × Finset Cell) :
    (L.foldl (scanBody st cell) acc).1 =
      acc.1 + ((L.filter (fun rc => decide (rc ≠ cell ∧
        (0 ≤ rc.1 ∧ rc.1 < st.height ∧ 0 ≤ rc.2 ∧ rc.2 < st.width) ∧
        rc ∈ st.mines))).length : ℤ) ∧
    (L.foldl (scanBody st cell) acc).2 =
      acc.2 ∪ (L.filter (fun rc => decide (rc ≠ cell ∧
        (0 ≤ rc.1 ∧ rc.1 < st.height ∧ 0 ≤ rc.2 ∧ rc.2 < st.width) ∧
        rc ∉ st.mines ∧ rc ∉ st.safes))).toFinset := by
  induction L generalizing acc with
  | nil => simp
  | cons y t ih =>
      by_cases h1 : y = cell
      · have hstep : scanBody st cell acc y = acc := by simp [scanBody, h1]
        rw [List.foldl_cons, hstep]
        have hrec := ih acc
        constructor
        · rw [hrec.1, List.filter_cons, if_neg (by simp [h1])]
        · rw [hrec.2, List.filter_cons, if_neg (by simp [h1])]
      · by_cases h2 : 0 ≤ y.1 ∧ y.1 < st.height ∧ 0 ≤ y.2 ∧ y.2 < st.width
        · by_cases h3 : y ∈ st.mines
          · have hstep : scanBody st cell acc y = (acc.1 + 1, acc.2) := by
              simp [scanBody, h1, h2, h3]
            have hrec := ih ((acc.1 + 1, acc.2) : ℤ × Finset Cell)
            rw [List.foldl_cons, hstep]
            constructor
            · rw [hrec.1]
              rw [List.filter_cons, if_pos (by simp [h1, h2, h3]),
                List.length_cons]
              push_cast
              ring
            · rw [hrec.2]
              rw [List.filter_cons, if_neg (by simp [h1, h2, h3])]
          · by_cases h4 : y ∈ st.safes
            · have hstep : scanBody st cell acc y = acc := by
                simp [scanBody, h1, h2, h3, h4]
              rw [List.foldl_cons, hstep]
              have hrec := ih acc
              constructor
              · rw [hrec.1, List.filter_cons, if_neg (by simp [h1, h2, h3])]
              · rw [hrec.2, List.filter_cons, if_neg (by simp [h1, h2, h3, h4])]
            · have hstep : scanBody st cell acc y = (acc.1, insert y acc.2) := by
                simp [scanBody, h1, h2, h3, h4]
              have hrec := ih ((acc.1, insert y acc.2) : ℤ × Finset Cell)
              rw [List.foldl_cons, hstep]
              constructor
              · rw [hrec.1]
                rw [List.filter_cons, if_neg (by simp [h1, h2, h3])]
              · rw [hrec.2]
                rw [List.filter_cons, if_pos (by simp [h1, h2, h3, h4]),
                  List.toFinset_cons, Finset.insert_union, Finset.union_insert]
        · have hstep : scanBody st cell acc y = acc := by simp [scanBody, h1, h2]
          rw [List.foldl_cons, hstep]
          have hrec := ih acc
          constructor
          · rw [hrec.1, List.filter_cons, if_neg (by simp [h2])]
          · rw [hrec.2, List.filter_cons, if_neg (by simp [h2])]

theorem mem_blockList {cell rc : Cell} :
    rc ∈ [cell.1 - 1, cell.1, cell.1 + 1].flatMap (fun r =>
        [cell.2 - 1, cell.2, cell.2 + 1].map (fun c => ((r, c) : Cell))) ↔
    (cell.1 - 1 ≤ rc.1 ∧ rc.1 ≤ cell.1 + 1) ∧
      (cell.2 - 1 ≤ rc.2 ∧ rc.2 ≤ cell.2 + 1) := by
  obtain ⟨a, b⟩ := rc
  simp only [List.mem_flatMap, List.mem_map, List.mem_cons, List.not_mem_nil,
    or_false, Prod.mk.injEq]
  constructor
  · rintro ⟨r, hr, c, hc, hra, hcb⟩
    subst hra
    subst hcb
    omega
  · intro h
    refine ⟨a, by omega, b, by omega, rfl, rfl⟩

theorem blockList_nodup (cell : Cell) :
    ([cell.1 - 1, cell.1, cell.1 + 1].flatMap (fun r =>
        [cell.2 - 1, cell.2, cell.2 + 1].map (fun c => ((r, c) : Cell)))).Nodup := by
  have hcol : ([cell.2 - 1, cell.2, cell.2 + 1] : List ℤ).Nodup := by
    refine List.nodup_cons.mpr ⟨?_, List.nodup_cons.mpr ⟨?_, List.nodup_singleton _⟩⟩
    · intro h
      rcases List.mem_cons.mp h with h | h
      · omega
      · rcases List.mem_cons.mp h with h | h
        · omega
        · exact absurd h (List.not_mem_nil _)
    · intro h
      rcases List.mem_cons.mp h with h | h
      · omega
      · exact absurd h (List.not_mem_nil _)
  have hdisj : ∀ r1 r2 : ℤ, r1 ≠ r2 →
      List.Disjoint
        ([cell.2 - 1, cell.2, cell.2 + 1].map (fun c => ((r1, c) : Cell)))
        ([cell.2 - 1, cell.2, cell.2 + 1].map (fun c => ((r2, c) : Cell))) := by
    intro r1 r2 hne p hp1 hp2
    simp only [List.mem_map] at hp1 hp2
    obtain ⟨c1, _, rfl⟩ := hp1
    obtain ⟨c2, _, h2⟩ := hp2
    exact hne (congrArg Prod.fst h2).symm
  rw [List.nodup_flatMap]
  constructor
  · intro x _
    refine List.Nodup.map ?_ hcol
    intro a b hab
    simpa using congrArg Prod.snd hab
  · rw [List.pairwise_cons]
    refine ⟨?_, ?_⟩
    · intro a ha
      rcases List.mem_cons.mp ha with rfl | ha2
      · exact hdisj _ _ (by omega)
      · rcases List.mem_cons.mp ha2 with rfl | ha3
        · exact hdisj _ _ (by omega)
        · exact absurd ha3 (List.not_mem_nil _)
    · rw [List.pairwise_cons]
      refine ⟨?_, ?_⟩
      · intro a ha
        rcases List.mem_cons.mp ha with rfl | ha2
        · exact hdisj _ _ (by omega)
        · exact absurd ha2 (List.not_mem_nil _)
      · exact List.pairwise_singleton _ _

theorem scanNeighbours_spec (st : AIState) (cell : Cell) :
    (scanNeighbours st cell).2 =
      (inBoundsNeighbours st cell).filter (fun rc => rc ∉ st.mines ∧ rc ∉ st.safes) ∧
    (scanNeighbours st cell).1 =
      (((inBoundsNeighbours st cell).filter (fun rc => rc ∈ st.mines)).card : ℤ) := by
  obtain ⟨hcount, hcells⟩ := scanFold_spec st cell
    ([cell.1 - 1, cell.1, cell.1 + 1].flatMap (fun r =>
      [cell.2 - 1, cell.2, cell.2 + 1].map (fun c => ((r, c) : Cell)))) (0, ∅)
  constructor
  · rw [scanNeighbours, hcells, Finset.empty_union]
    ext c
    simp only [List.mem_toFinset, List.mem_filter, mem_blockList, decide_eq_true_eq,
      inBoundsNeighbours, Finset.mem_filter, Finset.mem_product, Finset.mem_Icc]
    tauto
  · have hlen : (([cell.1 - 1, cell.1, cell.1 + 1].flatMap (fun r =>
        [cell.2 - 1, cell.2, cell.2 + 1].map (fun c => ((r, c) : Cell)))).filter
          (fun rc => decide (rc ≠ cell ∧
            (0 ≤ rc.1 ∧ rc.1 < st.height ∧ 0 ≤ rc.2 ∧ rc.2 < st.width) ∧
            rc ∈ st.mines))).length =
        ((inBoundsNeighbours st cell).filter (fun rc => rc ∈ st.mines)).card := by
      rw [← List.toFinset_card_of_nodup ((blockList_nodup cell).filter _)]
      congr 1
      ext c
      simp only [List.mem_toFinset, List.mem_filter, mem_blockList, decide_eq_true_eq,
        inBoundsNeighbours, Finset.mem_filter, Finset.mem_product, Finset.mem_Icc]
      tauto
    rw [scanNeighbours, hcount, zero_add, hlen]

/-- C5: for a cell not yet played, the sentence `add_knowledge` builds has as
cells exactly the in-bounds neighbours of the cell that are in neither
`mines` nor `safes`, its count is the reported count minus the number of
in-bounds neighbours already in `mines`, and it is appended to `knowledge`
exactly when this cell set is non-empty. -/
theorem c5_new_sentence (st : AIState) (cell : Cell) (cnt : ℤ)
    (h : cell ∉ st.moves_made) :
    (add_knowledge_pre st cell cnt).knowledge =
      st.knowledge ++
        (if ((inBoundsNeighbours st cell).filter
              (fun rc => rc ∉ st.mines ∧ rc ∉ st.safes)) ≠ ∅ then
          [Sentence.init
            ((inBoundsNeighbours st cell).filter
              (fun rc => rc ∉ st.mines ∧ rc ∉ st.safes))
            (cnt - (((inBoundsNeighbours st cell).filter
              (fun rc => rc ∈ st.mines)).card : ℤ))]
        else []) := by
  have hspec := scanNeighbours_spec
    ⟨st.height, st.width, insert cell st.moves_made, st.mines,
      insert cell st.safes, st.knowledge⟩ cell
  have hcells : (scanNeighbours ⟨st.height, st.width, insert cell st.moves_made,
      st.mines, insert cell st.safes, st.knowledge⟩ cell).2 =
      (inBoundsNeighbours st cell).filter (fun rc => rc ∉ st.mines ∧ rc ∉ st.safes) := by
    rw [hspec.1]
    refine Finset.filter_congr ?_
    intro rc hrc
    have hne : rc ≠ cell := by
      have h2 := (Finset.mem_filter.mp hrc).2
      exact h2.1
    simp [Finset.mem_insert, hne]
  have hcount : (scanNeighbours ⟨st.height, st.width, insert cell st.moves_made,
      st.mines, insert cell st.safes, st.knowledge⟩ cell).1 =
      (((inBoundsNeighbours st cell).filter (fun rc => rc ∈ st.mines)).card : ℤ) :=
    hspec.2
  simp only [add_knowledge_pre, if_pos h]
  rw [hcells, hcount]
  by_cases hne : ((inBoundsNeighbours st cell).filter
      (fun rc => rc ∉ st.mines ∧ rc ∉ st.safes)) ≠ ∅
  · rw [if_pos hne, if_pos hne]
  · rw [if_neg hne, if_neg hne]
    simp

/-- Witness for C5 on the initial 2-by-2 state and cell (0,0). -/
theorem c5_witness :
    (add_knowledge_pre (AIState.init 2 2) ((0:ℤ),(0:ℤ)) 1).knowledge =
      [Sentence.init {((0:ℤ),(1:ℤ)), ((1:ℤ),(0:ℤ)), ((1:ℤ),(1:ℤ))} 1] := by
  rw [c5_new_sentence (AIState.init 2 2) ((0:ℤ),(0:ℤ)) 1 (by decide)]
  exact beqKnowledge_eq (by rfl)

/-- C9: every cell of every sentence newly constructed by `add_knowledge` is
within grid bounds. -/
theorem c9_cells_in_bounds (st : AIState) (cell : Cell) (cnt : ℤ) :
    ∀ s ∈ (add_knowledge_pre st cell cnt).knowledge,
      s ∈ st.knowledge ∨
      ∀ rc ∈ s.cells, 0 ≤ rc.1 ∧ rc.1 < st.height ∧ 0 ≤ rc.2 ∧ rc.2 < st.width := by
  intro s hs
  simp only [add_knowledge_pre] at hs
  by_cases h1 : cell ∉ st.moves_made
  swap
  · rw [if_neg h1] at hs
    exact Or.inl hs
  rw [if_pos h1] at hs
  by_cases h2 : (scanNeighbours ⟨st.height, st.width, insert cell st.moves_made,
      st.mines, insert cell st.safes, st.knowledge⟩ cell).2 ≠ ∅
  swap
  · rw [if_neg h2] at hs
    exact Or.inl hs
  rw [if_pos h2] at hs
  rcases List.mem_append.mp hs with hmem | hmem
  · exact Or.inl hmem
  · right
    have hse : s = Sentence.init
        (scanNeighbours ⟨st.height, st.width, insert cell st.moves_made,
          st.mines, insert cell st.safes, st.knowledge⟩ cell).2
        (cnt - (scanNeighbours ⟨st.height, st.width, insert cell st.moves_made,
          st.mines, insert cell st.safes, st.knowledge⟩ cell).1) := by
      simpa using hmem
    subst hse
    intro rc hrc
    have hrc2 : rc ∈ (scanNeighbours ⟨st.height, st.width, insert cell st.moves_made,
        st.mines, insert cell st.safes, st.knowledge⟩ cell).2 := hrc
    rw [(scanNeighbours_spec _ _).1] at hrc2
    have h3 := (Finset.mem_filter.mp hrc2).1
    have h4 := (Finset.mem_filter.mp h3).2
    exact h4.2

/-- Witness for C9: the cell (0,1) of the sentence built for (0,0) on the
2-by-2 grid is within bounds. -/
theorem c9_witness :
    0 ≤ ((0:ℤ),(1:ℤ)).1 ∧ ((0:ℤ),(1:ℤ)).1 < (AIState.init 2 2).height ∧
    0 ≤ ((0:ℤ),(1:ℤ)).2 ∧ ((0:ℤ),(1:ℤ)).2 < (AIState.init 2 2).width := by
  have hK : (add_knowledge_pre (AIState.init 2 2) ((0:ℤ),(0:ℤ)) 1).knowledge =
      [Sentence.init {((0:ℤ),(1:ℤ)), ((1:ℤ),(0:ℤ)), ((1:ℤ),(1:ℤ))} 1] :=
    beqKnowledge_eq (by rfl)
  have h := c9_cells_in_bounds (AIState.init 2 2) ((0:ℤ),(0:ℤ)) 1
    (Sentence.init {((0:ℤ),(1:ℤ)), ((1:ℤ),(0:ℤ)), ((1:ℤ),(1:ℤ))} 1)
    (by rw [hK]; exact List.Mem.head _)
  rcases h with h | h
  · exact absurd h (List.not_mem_nil _)
  · exact h ((0:ℤ),(1:ℤ)) (by decide)

theorem fuelNone_of_cycle {st : AIState} (hc : updatePass st = (st, true)) :
    ∀ n, updateKnowledgeFuel n st = none := by
  intro n
  induction n with
  | zero => rfl
  | succ n ih =>
      simp [updateKnowledgeFuel, hc]
      exact ih

/-- C4 counterexample: from the state `c4Bad`, whose knowledge holds two
sentences over the same three cells with counts 1 and 2, the
`update_knowledge` loop never terminates: after one pass it reaches
`c4Cycle`, and every pass from `c4Cycle` drops the empty derived sentence,
re-derives it, and reports a change. -/
theorem c4_nontermination :
    updatePass c4Cycle = (c4Cycle, true) ∧
    ¬ ∃ n stFinal, updateKnowledgeFuel n c4Bad = some stFinal := by
  have hcyc : updatePass c4Cycle = (c4Cycle, true) :=
    Prod.ext (beqState_eq (by rfl)) (by rfl)
  refine ⟨hcyc, ?_⟩
  rintro ⟨n, stFinal, h⟩
  cases n with
  | zero => cases h
  | succ n =>
      have hstep : updatePass c4Bad = (c4Cycle, true) :=
        Prod.ext (beqState_eq (by rfl)) (by rfl)
      simp [updateKnowledgeFuel, hstep] at h
      rw [fuelNone_of_cycle hcyc n] at h
      cases h

theorem subset_cellsOf {K : List Sentence} {s : Sentence} (hs : s ∈ K) :
    s.cells ⊆ cellsOf K := by
  intro c hc
  rw [mem_cellsOf]
  exact ⟨s, hs, hc⟩

theorem cellsOf_subset_iff {K : List Sentence} {U : Finset Cell} :
    cellsOf K ⊆ U ↔ ∀ s ∈ K, s.cells ⊆ U := by
  constructor
  · intro h s hs
    exact (subset_cellsOf hs).trans h
  · intro h c hc
    rw [mem_cellsOf] at hc
    obtain ⟨s, hs, hcs⟩ := hc
    exact h s hs hcs

theorem known_mines_subset (s : Sentence) : s.known_mines ⊆ s.cells := by
  rw [Sentence.known_mines]
  split_ifs
  · exact subset_rfl
  · exact Finset.empty_subset _

theorem known_safes_subset (s : Sentence) : s.known_safes ⊆ s.cells := by
  rw [Sentence.known_safes]
  split_ifs
  · exact subset_rfl
  · exact Finset.empty_subset _

theorem collectMines_subset_cellsOf (K : List Sentence) :
    collectMines K ⊆ cellsOf K := by
  intro c hc
  rw [mem_collectMines] at hc
  obtain ⟨s, hs, hcs⟩ := hc
  exact subset_cellsOf hs (known_mines_subset s hcs)

theorem collectSafes_subset_cellsOf (K : List Sentence) :
    collectSafes K ⊆ cellsOf K := by
  intro c hc
  rw [mem_collectSafes] at hc
  obtain ⟨s, hs, hcs⟩ := hc
  exact subset_cellsOf hs (known_safes_subset s hcs)

theorem collectMines_subset_of_consistent {M : Finset Cell} {K : List Sentence}
    (h : consistentWith M K) : collectMines K ⊆ M := by
  intro c hc
  rw [mem_collectMines] at hc
  obtain ⟨s, hs, hcs⟩ := hc
  rw [Sentence.known_mines] at hcs
  split_ifs at hcs with hcard
  · have hcount := h s hs
    rw [hcount] at hcard
    have hcc : (s.cells ∩ M).card = s.cells.card := by exact_mod_cast hcard
    have hsub : s.cells ∩ M = s.cells :=
      Finset.eq_of_subset_of_card_le Finset.inter_subset_left (le_of_eq hcc.symm)
    have hmem : c ∈ s.cells ∩ M := hsub.symm ▸ hcs
    exact (Finset.mem_inter.mp hmem).2
  · exact absurd hcs (Finset.not_mem_empty c)

theorem collectSafes_disjoint_of_consistent {M : Finset Cell} {K : List Sentence}
    (h : consistentWith M K) : ∀ c ∈ collectSafes K, c ∉ M := by
  intro c hc hcM
  rw [mem_collectSafes] at hc
  obtain ⟨s, hs, hcs⟩ := hc
  rw [Sentence.known_safes] at hcs
  split_ifs at hcs with hzero
  · have hcount := h s hs
    rw [hzero] at hcount
    have hcc : (s.cells ∩ M).card = 0 := by exact_mod_cast hcount.symm
    have hempty : s.cells ∩ M = ∅ := Finset.card_eq_zero.mp hcc
    have hmem : c ∈ s.cells ∩ M := Finset.mem_inter.mpr ⟨hcs, hcM⟩
    rw [hempty] at hmem
    exact absurd hmem (Finset.not_mem_empty c)
  · exact absurd hcs (Finset.not_mem_empty c)

theorem marked_consistent {M fresh nsafes : Finset Cell} {s : Sentence}
    (hfresh : fresh ⊆ M) (hnsafes : ∀ c ∈ nsafes, c ∉ M)
    (hs : s.count = (((s.cells ∩ M).card : ℕ) : ℤ)) :
    ((s.mark_mine_set fresh).mark_safe_set nsafes).count =
      (((((s.mark_mine_set fresh).mark_safe_set nsafes).cells ∩ M).card : ℕ) : ℤ) := by
  simp only [Sentence.mark_mine_set, Sentence.mark_safe_set]
  have h1 : ((s.cells \ fresh) \ nsafes) ∩ M = (s.cells ∩ M) \ fresh := by
    ext c
    simp only [Finset.mem_sdiff, Finset.mem_inter]
    constructor
    · rintro ⟨⟨⟨hc, hnf⟩, _⟩, hm⟩
      exact ⟨⟨hc, hm⟩, hnf⟩
    · rintro ⟨⟨hc, hm⟩, hnf⟩
      exact ⟨⟨⟨hc, hnf⟩, fun hns => hnsafes c hns hm⟩, hm⟩
  have h2 : (s.cells ∩ M) ∩ fresh = s.cells ∩ fresh := by
    ext c
    simp only [Finset.mem_inter]
    constructor
    · rintro ⟨⟨hc, _⟩, hf⟩
      exact ⟨hc, hf⟩
    · rintro ⟨hc, hf⟩
      exact ⟨⟨hc, hfresh hf⟩, hf⟩
  have h3 := Finset.card_sdiff_add_card_inter (s.cells ∩ M) fresh
  rw [h1, hs, h2] at *
  omega

theorem derived_consistent {M : Finset Cell} {s1 s2 : Sentence}
    (h1 : s1.count = (((s1.cells ∩ M).card : ℕ) : ℤ))
    (h2 : s2.count = (((s2.cells ∩ M).card : ℕ) : ℤ))
    (hsub : s2.cells ⊆ s1.cells) :
    s1.count - s2.count = ((((s1.cells \ s2.cells) ∩ M).card : ℕ) : ℤ) := by
  have hsubM : s2.cells ∩ M ⊆ s1.cells ∩ M := by
    intro c hc
    rw [Finset.mem_inter] at hc ⊢
    exact ⟨hsub hc.1, hc.2⟩
  have hset : (s1.cells \ s2.cells) ∩ M = (s1.cells ∩ M) \ (s2.cells ∩ M) := by
    ext c
    simp only [Finset.mem_sdiff, Finset.mem_inter]
    tauto
  have hcard := Finset.card_sdiff hsubM
  have hle := Finset.card_le_card hsubM
  rw [h1, h2, hset, hcard]
  omega

theorem derived_nonempty {M : Finset Cell} {s1 s2 : Sentence}
    (h1 : s1.count = (((s1.cells ∩ M).card : ℕ) : ℤ))
    (h2 : s2.count = (((s2.cells ∩ M).card : ℕ) : ℤ))
    (hsub : s2.cells ⊆ s1.cells) (hne : s1.eqv s2 = false) :
    s1.cells \ s2.cells ≠ ∅ := by
  intro hempty
  have hcells : s1.cells = s2.cells :=
    Finset.Subset.antisymm (by rwa [Finset.sdiff_eq_empty_iff_subset] at hempty) hsub
  have hcount : s1.count = s2.count := by rw [h1, h2, hcells]
  have heq : s1.eqv s2 = true := eqv_iff.mpr ⟨hcells, hcount⟩
  rw [hne] at heq
  cases heq

theorem updatePass_knowledge (st : AIState) :
    (updatePass st).1.knowledge = passKept st ++ inferNew (passKept st) := rfl

theorem updatePass_flag (st : AIState) :
    (updatePass st).2 =
      (!(decide ((collectMines st.knowledge \ st.mines) = ∅)) ||
        !(decide (collectSafes st.knowledge = ∅)) ||
        !(decide (inferNew (passKept st) = []))) := rfl

theorem mem_passKept {st : AIState} {x : Sentence} :
    x ∈ passKept st ↔
      (∃ s ∈ st.knowledge,
        x = (s.mark_mine_set (collectMines st.knowledge \ st.mines)).mark_safe_set
          (collectSafes st.knowledge)) ∧ x.cells ≠ ∅ := by
  constructor
  · intro h
    obtain ⟨hm, hp⟩ := List.mem_filter.mp h
    simp only [passMarked, List.mem_map] at hm
    obtain ⟨y, ⟨z, hz, rfl⟩, rfl⟩ := hm
    refine ⟨⟨z, hz, rfl⟩, ?_⟩
    simpa using hp
  · rintro ⟨⟨s, hs, rfl⟩, hne⟩
    refine List.mem_filter.mpr ⟨?_, by simpa using hne⟩
    simp only [passMarked, List.mem_map]
    exact ⟨_, ⟨s, hs, rfl⟩, rfl⟩

theorem updatePass_preserves {M U0 : Finset Cell} {st : AIState}
    (hc : consistentWith M st.knowledge) (hU : cellsOf st.knowledge ⊆ U0) :
    consistentWith M (updatePass st).1.knowledge ∧
    cellsOf (updatePass st).1.knowledge ⊆ U0 ∧
    ∀ s ∈ (updatePass st).1.knowledge, s.cells ≠ ∅ := by
  have hfresh : collectMines st.knowledge \ st.mines ⊆ M :=
    Finset.sdiff_subset.trans (collectMines_subset_of_consistent hc)
  have hnsafes : ∀ c ∈ collectSafes st.knowledge, c ∉ M :=
    collectSafes_disjoint_of_consistent hc
  have hkeptCons : consistentWith M (passKept st) := by
    intro x hx
    obtain ⟨⟨s, hs, rfl⟩, _⟩ := mem_passKept.mp hx
    exact marked_consistent hfresh hnsafes (hc s hs)
  have hkeptCells : ∀ x ∈ passKept st, x.cells ⊆ U0 := by
    intro x hx
    obtain ⟨⟨s, hs, rfl⟩, _⟩ := mem_passKept.mp hx
    refine Finset.Subset.trans ?_ ((subset_cellsOf hs).trans hU)
    exact Finset.Subset.trans Finset.sdiff_subset Finset.sdiff_subset
  have hder : ∀ x ∈ inferNew (passKept st),
      x.count = (((x.cells ∩ M).card : ℕ) : ℤ) ∧ x.cells ≠ ∅ ∧ x.cells ⊆ U0 := by
    intro x hx
    obtain ⟨hnew, hnn, hmc, hsc, s1, hs1, s2, hs2, hne, hsub, hs2ne, hcells, hcount⟩ :=
      inferNew_shape _ x hx
    have h1 := hkeptCons s1 hs1
    have h2 := hkeptCons s2 hs2
    refine ⟨?_, ?_, ?_⟩
    · rw [hcount, hcells]
      exact derived_consistent h1 h2 hsub
    · rw [hcells]
      exact derived_nonempty h1 h2 hsub hne
    · rw [hcells]
      exact Finset.sdiff_subset.trans (hkeptCells s1 hs1)
  refine ⟨?_, ?_, ?_⟩
  · intro x hx
    rw [updatePass_knowledge] at hx
    rcases List.mem_append.mp hx with hx2 | hx2
    · exact hkeptCons x hx2
    · exact (hder x hx2).1
  · rw [updatePass_knowledge, cellsOf_subset_iff]
    intro x hx
    rcases List.mem_append.mp hx with hx2 | hx2
    · exact hkeptCells x hx2
    · exact (hder x hx2).2.2
  · intro x hx
    rw [updatePass_knowledge] at hx
    rcases List.mem_append.mp hx with hx2 | hx2
    · exact (mem_passKept.mp hx2).2
    · exact (hder x hx2).2.1

theorem mem_eqvKeys {K : List Sentence} {k : Finset Cell × ℤ} :
    k ∈ eqvKeys K ↔ ∃ s ∈ K, s.cells = k.1 ∧ s.count = k.2 := by
  simp only [eqvKeys, List.mem_toFinset, List.mem_map, Prod.ext_iff]

theorem memEqv_iff_key {x : Sentence} {K : List Sentence} :
    memEqv x K = true ↔ (x.cells, x.count) ∈ eqvKeys K := by
  rw [memEqv_iff, mem_eqvKeys]
  constructor
  · rintro ⟨t, ht, h1, h2⟩
    exact ⟨t, ht, h1.symm, h2.symm⟩
  · rintro ⟨t, ht, h1, h2⟩
    exact ⟨t, ht, h1.symm, h2.symm⟩

theorem eqvKeys_card_le {M U0 : Finset Cell} {K : List Sentence}
    (hc : consistentWith M K) (hU : cellsOf K ⊆ U0) :
    (eqvKeys K).card ≤ 2 ^ U0.card := by
  have hsub : eqvKeys K ⊆ U0.powerset.image (fun c => (c, (((c ∩ M).card : ℕ) : ℤ))) := by
    intro k hk
    rw [mem_eqvKeys] at hk
    obtain ⟨s, hs, h1, h2⟩ := hk
    rw [Finset.mem_image]
    refine ⟨k.1, ?_, ?_⟩
    · rw [Finset.mem_powerset, ← h1]
      exact (subset_cellsOf hs).trans hU
    · have hcs := hc s hs
      rw [h1, h2] at hcs
      exact Prod.ext rfl hcs.symm
  calc (eqvKeys K).card
      ≤ (U0.powerset.image (fun c => (c, (((c ∩ M).card : ℕ) : ℤ)))).card :=
        Finset.card_le_card hsub
    _ ≤ U0.powerset.card := Finset.card_image_le
    _ = 2 ^ U0.card := Finset.card_powerset U0

theorem eqvKeys_append {K L : List Sentence} :
    eqvKeys (K ++ L) = eqvKeys K ∪ eqvKeys L := by
  simp [eqvKeys, List.toFinset_append]

theorem updatePass_cells_shrink {st : AIState}
    (hmark : (collectMines st.knowledge \ st.mines) ∪ collectSafes st.knowledge ≠ ∅) :
    (cellsOf (updatePass st).1.knowledge).card < (cellsOf st.knowledge).card := by
  have hkept : ∀ x ∈ passKept st,
      x.cells ⊆ cellsOf st.knowledge \
        ((collectMines st.knowledge \ st.mines) ∪ collectSafes st.knowledge) := by
    intro x hx
    obtain ⟨⟨s, hs, rfl⟩, _⟩ := mem_passKept.mp hx
    intro c hc
    simp only [Sentence.mark_mine_set, Sentence.mark_safe_set, Finset.mem_sdiff] at hc
    obtain ⟨⟨hcc, hcf⟩, hcn⟩ := hc
    rw [Finset.mem_sdiff, Finset.mem_union]
    refine ⟨subset_cellsOf hs hcc, ?_⟩
    rintro (h | h)
    · rw [Finset.mem_sdiff] at h
      exact hcf h
    · exact hcn h
  have hsub : cellsOf (updatePass st).1.knowledge ⊆
      cellsOf st.knowledge \
        ((collectMines st.knowledge \ st.mines) ∪ collectSafes st.knowledge) := by
    rw [updatePass_knowledge, cellsOf_subset_iff]
    intro x hx
    rcases List.mem_append.mp hx with hx2 | hx2
    · exact hkept x hx2
    · obtain ⟨_, _, _, _, s1, hs1, s2, _, _, _, _, hcells, _⟩ := inferNew_shape _ x hx2
      rw [hcells]
      exact Finset.sdiff_subset.trans (hkept s1 hs1)
  have hmarkSub : (collectMines st.knowledge \ st.mines) ∪ collectSafes st.knowledge ⊆
      cellsOf st.knowledge :=
    Finset.union_subset
      (Finset.sdiff_subset.trans (collectMines_subset_cellsOf st.knowledge))
      (collectSafes_subset_cellsOf st.knowledge)
  have hpos : 0 < ((collectMines st.knowledge \ st.mines) ∪ collectSafes st.knowledge).card :=
    Finset.card_pos.mpr (Finset.nonempty_iff_ne_empty.mpr hmark)
  have hpos2 : 0 < (cellsOf st.knowledge).card :=
    lt_of_lt_of_le hpos (Finset.card_le_card hmarkSub)
  calc (cellsOf (updatePass st).1.knowledge).card
      ≤ (cellsOf st.knowledge \
          ((collectMines st.knowledge \ st.mines) ∪ collectSafes st.knowledge)).card :=
        Finset.card_le_card hsub
    _ = (cellsOf st.knowledge).card -
          ((collectMines st.knowledge \ st.mines) ∪ collectSafes st.knowledge).card :=
        Finset.card_sdiff hmarkSub
    _ < (cellsOf st.knowledge).card := Nat.sub_lt hpos2 hpos

theorem mark_mine_set_empty (s : Sentence) : s.mark_mine_set ∅ = s := by
  cases s
  simp [Sentence.mark_mine_set]

theorem mark_safe_set_empty (s : Sentence) : s.mark_safe_set ∅ = s := by
  cases s
  simp [Sentence.mark_safe_set]

theorem passKept_of_no_marks {st : AIState}
    (hf : collectMines st.knowledge \ st.mines = ∅)
    (hsf : collectSafes st.knowledge = ∅)
    (hne : ∀ s ∈ st.knowledge, s.cells ≠ ∅) :
    passKept st = st.knowledge := by
  unfold passKept passMarked
  rw [hf, hsf, List.map_map]
  have hfun : ((fun s : Sentence => s.mark_safe_set ∅) ∘
      (fun s : Sentence => s.mark_mine_set ∅)) = id := by
    funext s
    simp [mark_mine_set_empty, mark_safe_set_empty]
  rw [hfun, List.map_id]
  refine List.filter_eq_self.mpr ?_
  intro a ha
  simpa using hne a ha

theorem updatePass_measure_lt {M U0 : Finset Cell} {st : AIState}
    (hc : consistentWith M st.knowledge) (hU : cellsOf st.knowledge ⊆ U0)
    (hne : ∀ s ∈ st.knowledge, s.cells ≠ ∅)
    (hu : (updatePass st).2 = true) :
    passMeasure U0 (updatePass st).1.knowledge < passMeasure U0 st.knowledge := by
  have hpres := @updatePass_preserves M U0 st hc hU
  have hkeyBound : (eqvKeys (updatePass st).1.knowledge).card ≤ 2 ^ U0.card :=
    eqvKeys_card_le hpres.1 hpres.2.1
  have hkeyBound0 : (eqvKeys st.knowledge).card ≤ 2 ^ U0.card := eqvKeys_card_le hc hU
  by_cases hmark : (collectMines st.knowledge \ st.mines) ∪ collectSafes st.knowledge ≠ ∅
  · have hlt := updatePass_cells_shrink hmark
    unfold passMeasure
    have hc1 : 1 ≤ (cellsOf st.knowledge).card := by omega
    have hm1 : (2 ^ U0.card + 1) * (cellsOf (updatePass st).1.knowledge).card ≤
        (2 ^ U0.card + 1) * ((cellsOf st.knowledge).card - 1) :=
      Nat.mul_le_mul_left _ (by omega)
    have hm2 : (2 ^ U0.card + 1) * ((cellsOf st.knowledge).card - 1) + (2 ^ U0.card + 1) =
        (2 ^ U0.card + 1) * (cellsOf st.knowledge).card := by
      rw [← Nat.mul_succ]
      congr 1
      omega
    omega
  · have hboth := Finset.union_eq_empty.mp (not_not.mp hmark)
    have hf := hboth.1
    have hsf := hboth.2
    have hkept := passKept_of_no_marks hf hsf hne
    have hnew : inferNew (passKept st) ≠ [] := by
      rw [updatePass_flag] at hu
      simp [hf, hsf] at hu
      exact hu
    have hknow : (updatePass st).1.knowledge = st.knowledge ++ inferNew st.knowledge := by
      rw [updatePass_knowledge, hkept]
    rw [hkept] at hnew
    have hcellsEq : cellsOf (updatePass st).1.knowledge = cellsOf st.knowledge := by
      refine Finset.Subset.antisymm ?_ ?_
      · rw [hknow, cellsOf_subset_iff]
        intro x hx
        rcases List.mem_append.mp hx with hx2 | hx2
        · exact subset_cellsOf hx2
        · obtain ⟨_, _, _, _, s1, hs1, s2, _, _, _, _, hcells, _⟩ :=
            inferNew_shape _ x hx2
          rw [hcells]
          exact Finset.sdiff_subset.trans (subset_cellsOf hs1)
      · intro c hcm
        rw [mem_cellsOf] at hcm
        obtain ⟨s, hs, hcs⟩ := hcm
        rw [hknow, mem_cellsOf]
        exact ⟨s, List.mem_append_left _ hs, hcs⟩
    obtain ⟨x, hx⟩ : ∃ x, x ∈ inferNew st.knowledge := by
      cases hni : inferNew st.knowledge with
      | nil => exact absurd hni hnew
      | cons a t => exact ⟨a, hni ▸ List.mem_cons_self a t⟩
    have hxshape := inferNew_shape st.knowledge x hx
    have hxnew : (x.cells, x.count) ∉ eqvKeys st.knowledge := by
      intro hmem
      have hkey := memEqv_iff_key.mpr hmem
      rw [hxshape.1] at hkey
      cases hkey
    have hkeySub : eqvKeys st.knowledge ⊆ eqvKeys (updatePass st).1.knowledge := by
      rw [hknow, eqvKeys_append]
      exact Finset.subset_union_left
    have hkeyMem : (x.cells, x.count) ∈ eqvKeys (updatePass st).1.knowledge := by
      rw [hknow, eqvKeys_append, Finset.mem_union]
      right
      rw [mem_eqvKeys]
      exact ⟨x, hx, rfl, rfl⟩
    have hkeyLt : (eqvKeys st.knowledge).card < (eqvKeys (updatePass st).1.knowledge).card :=
      Finset.card_lt_card ((Finset.ssubset_iff_of_subset hkeySub).mpr
        ⟨_, hkeyMem, hxnew⟩)
    unfold passMeasure
    rw [hcellsEq]
    omega

theorem fuel_of_measure {M U0 : Finset Cell} :
    ∀ (bound : ℕ) (st : AIState), consistentWith M st.knowledge →
      cellsOf st.knowledge ⊆ U0 → (∀ s ∈ st.knowledge, s.cells ≠ ∅) →
      passMeasure U0 st.knowledge ≤ bound →
      ∃ stFinal, updateKnowledgeFuel (bound + 1) st = some stFinal := by
  intro bound
  induction bound with
  | zero =>
      intro st hc hU hne hm
      by_cases hp : (updatePass st).2 = true
      · have := @updatePass_measure_lt M U0 st hc hU hne hp
        omega
      · refine ⟨(updatePass st).1, ?_⟩
        simp only [updateKnowledgeFuel]
        rw [if_neg hp]
  | succ b ih =>
      intro st hc hU hne hm
      by_cases hp : (updatePass st).2 = true
      · have hpres := @updatePass_preserves M U0 st hc hU
        have hlt := @updatePass_measure_lt M U0 st hc hU hne hp
        obtain ⟨stFinal, hsf⟩ :=
          ih (updatePass st).1 hpres.1 hpres.2.1 hpres.2.2 (by omega)
        refine ⟨stFinal, ?_⟩
        show updateKnowledgeFuel (b + 1 + 1) st = some stFinal
        simp only [updateKnowledgeFuel]
        rw [if_pos hp]
        exact hsf
      · refine ⟨(updatePass st).1, ?_⟩
        simp only [updateKnowledgeFuel]
        rw [if_neg hp]

theorem updateKnowledgeFuel_le {n m : ℕ} {st stFinal : AIState}
    (h : updateKnowledgeFuel n st = some stFinal) (hnm : n ≤ m) :
    updateKnowledgeFuel m st = some stFinal := by
  induction n generalizing m st with
  | zero => cases h
  | succ n ih =>
      cases m with
      | zero => omega
      | succ m =>
          simp only [updateKnowledgeFuel] at h ⊢
          by_cases hp : (updatePass st).2 = true
          · rw [if_pos hp] at h ⊢
            exact ih h (by omega)
          · rw [if_neg hp] at h ⊢
            exact h

/-- C4 amended: the inference loop terminates (within `fuelBound` passes)
from every state whose knowledge base is consistent, that is, some set `M`
of cells satisfies `count = |cells ∩ M|` for every sentence.  Without the
consistency restriction the loop can run forever, as `c4_nontermination`
shows. -/
theorem c4_terminates_of_consistent (st : AIState) (M : Finset Cell)
    (hc : consistentWith M st.knowledge) :
    (updateKnowledgeFuel (fuelBound st) st).isSome = true := by
  by_cases hp : (updatePass st).2 = true
  · have hpres := @updatePass_preserves M (cellsOf st.knowledge) st hc subset_rfl
    have hcard : (cellsOf (updatePass st).1.knowledge).card ≤ (cellsOf st.knowledge).card :=
      Finset.card_le_card hpres.2.1
    have hkeys : (eqvKeys (updatePass st).1.knowledge).card ≤
        2 ^ (cellsOf st.knowledge).card :=
      eqvKeys_card_le hpres.1 hpres.2.1
    have hm : passMeasure (cellsOf st.knowledge) (updatePass st).1.knowledge ≤
        (2 ^ (cellsOf st.knowledge).card + 1) * (cellsOf st.knowledge).card +
          2 ^ (cellsOf st.knowledge).card := by
      unfold passMeasure
      have h1 : (2 ^ (cellsOf st.knowledge).card + 1) *
          (cellsOf (updatePass st).1.knowledge).card ≤
          (2 ^ (cellsOf st.knowledge).card + 1) * (cellsOf st.knowledge).card :=
        Nat.mul_le_mul_left _ hcard
      omega
    obtain ⟨stFinal, hsf⟩ := @fuel_of_measure M (cellsOf st.knowledge)
      ((2 ^ (cellsOf st.knowledge).card + 1) * (cellsOf st.knowledge).card +
        2 ^ (cellsOf st.knowledge).card)
      (updatePass st).1 hpres.1 hpres.2.1 hpres.2.2 hm
    have hrun : updateKnowledgeFuel
        ((2 ^ (cellsOf st.knowledge).card + 1) * (cellsOf st.knowledge).card +
          2 ^ (cellsOf st.knowledge).card + 1 + 1) st = some stFinal := by
      simp only [updateKnowledgeFuel]
      rw [if_pos hp]
      exact hsf
    have hle : (2 ^ (cellsOf st.knowledge).card + 1) * (cellsOf st.knowledge).card +
        2 ^ (cellsOf st.knowledge).card + 1 + 1 ≤ fuelBound st := by
      unfold fuelBound
      have hexp : (2 ^ (cellsOf st.knowledge).card + 1) * ((cellsOf st.knowledge).card + 2) =
          (2 ^ (cellsOf st.knowledge).card + 1) * (cellsOf st.knowledge).card +
            (2 ^ (cellsOf st.knowledge).card + 1) * 2 := by ring
      omega
    rw [updateKnowledgeFuel_le hrun hle]
    rfl
  · have h1 : updateKnowledgeFuel 1 st = some (updatePass st).1 := by
      simp only [updateKnowledgeFuel]
      rw [if_neg hp]
    have hle : 1 ≤ fuelBound st := by
      unfold fuelBound
      omega
    rw [updateKnowledgeFuel_le h1 hle]
    rfl

/-- Witness for the amended C4 at a concrete consistent state (true mine set
`{(0,0)}`). -/
theorem c4_witness :
    (updateKnowledgeFuel (fuelBound c4Consistent) c4Consistent).isSome = true := by
  refine c4_terminates_of_consistent c4Consistent {((0:ℤ),(0:ℤ))} ?_
  intro s hs
  have hs2 : s ∈ [Sentence.init {((0:ℤ),(0:ℤ))} 1] := hs
  rw [List.mem_singleton] at hs2
  subst hs2
  decide
